import Mathlib

/-!
Shallow embedding of `plugin.py` from the FindInFiles-addon repository.

The plugin operates on a host editor's view/window object model.  We model a
view as the data the plugin reads from it: the buffer text (a list of
characters), the primary selection region, the host-maintained region lists
(`get_regions("match")`, `find_by_selector("entity.name.filename.find-in-files")`),
and a few host-provided facts (whether the view matches the
`text.find-in-files` selector, whether it sits in the window's tab list,
whether it has a window, and its buffer change counter).

Pure text helpers (`view.substr`, `view.line`, `view.rowcol`, `view.find_all`)
are translated directly; regexes that the source applies are translated into
explicit scanning functions with Python `re` semantics for the concrete
patterns involved.  Selections in Sublime always contain at least one region
for the views these commands run on, so the primary region is a structural
field (`sel0`).
-/

namespace FifAddon

def str (s : String) : List Char := s.toList

/-- A Sublime `sublime.Region`: a pair of text offsets.  `a` can be larger
than `b` for reversed selections; `begin()`/`end()` are the min/max. -/
structure Region where
  a : Nat
  b : Nat
deriving DecidableEq

def rbegin (r : Region) : Nat := min r.a r.b

def rend (r : Region) : Nat := max r.a r.b

/-- The data the plugin reads from a `sublime.View` (and its window). -/
structure View where
  text : List Char
  /-- `view.sel()[0]`; a view's selection is never empty in the host. -/
  sel0 : Region
  /-- the remaining selection regions, `view.sel()[1:]`. -/
  selRest : List Region
  /-- `view.get_regions("match")`, maintained by the host's Find panel. -/
  matchRegions : List Region
  /-- `view.find_by_selector("entity.name.filename.find-in-files")`. -/
  filenameRegions : List Region
  /-- an identifier for `view.window()`. -/
  window : Nat
  /-- whether `view.window()` is not `None`. -/
  hasWindow : Bool
  /-- `view.match_selector(0, "text.find-in-files")`, i.e. `is_applicable`. -/
  applicable : Bool
  /-- `is_result_buffer`: whether `view in window.views()`. -/
  inTabList : Bool
  /-- `view.change_count()`. -/
  changeCount : Nat
deriving DecidableEq

/-! ### Text primitives -/

/-- `view.substr(sublime.Region(a, b))` for `a ≤ b`. -/
def substrL (t : List Char) (a b : Nat) : List Char := (t.take b).drop a

/-- Offset of the start of the line containing `p` (one past the last
newline before `p`). -/
def lineStartAt (t : List Char) (p : Nat) : Nat :=
  ((((List.range p).filter (fun i => decide (t[i]? = some '\n'))).map (fun i => i + 1))).getLastD 0

/-- Offset of the end of the line containing `p` (the next newline at or
after `p`, or the end of the buffer). -/
def lineEndAt (t : List Char) (p : Nat) : Nat :=
  (((List.range' p (t.length - p)).filter (fun i => decide (t[i]? = some '\n')))).headD t.length

/-- `view.substr(view.line(p))`: the line containing `p`, without its
trailing newline. -/
def lineContentAt (t : List Char) (p : Nat) : List Char :=
  substrL t (lineStartAt t p) (lineEndAt t p)

/-- `view.substr(view.full_line(p))`: the line containing `p`, including its
trailing newline when there is one (`full_line_content_at` in the source). -/
def fullLineContentAt (t : List Char) (p : Nat) : List Char :=
  substrL t (lineStartAt t p) (min (lineEndAt t p + 1) t.length)

/-- The row of `view.rowcol(p)`: number of newlines before `p`. -/
def rowAt (t : List Char) (p : Nat) : Nat :=
  ((t.take p).filter (fun c => decide (c = '\n'))).length

/-- The column of `view.rowcol(p)`. -/
def colAt (t : List Char) (p : Nat) : Nat := p - lineStartAt t p

/-- Split the buffer into its lines ("a\nb" becomes [a, b]; a trailing
newline yields a final empty line, as in the host's line model). -/
def splitLines : List Char → List (List Char)
  | [] => [[]]
  | c :: rest =>
    if c = '\n' then [] :: splitLines rest
    else
      match splitLines rest with
      | [] => [[c]]
      | l :: ls => (c :: l) :: ls

/-- Inverse of `splitLines`: join lines with single newlines. -/
def joinLines : List (List Char) → List Char
  | [] => []
  | [l] => l
  | l :: ls => l ++ '\n' :: joinLines ls

/-- Each line of a buffer together with the offset of its first character,
starting from base offset `p`. -/
def lineRecords (p : Nat) : List (List Char) → List (Nat × List Char)
  | [] => []
  | l :: ls => (p, l) :: lineRecords (p + l.length + 1) ls

/-- The number of characters a list of lines occupies in the buffer when
every line is followed by a newline. -/
def flatLen : List (List Char) → Nat
  | [] => 0
  | l :: ls => l.length + 1 + flatLen ls

/-! ### The headline regexes

`fif_addon_refresh_last_search` locates results with
`view.find_all(r"^Searching \d+ files")`; `update_searching_headline` and the
wait-listener use `^Searching \d+ files .*` (anchored at a line start; `.`
does not cross newlines, so `.*` runs to the end of the line). -/

/-- If the line `l` starts with `Searching `, one or more digits, and
` files`, the length of that match (the regex `^Searching \d+ files`
matched against the start of a line). -/
def headlinePrefixLen (l : List Char) : Option Nat :=
  if (str "Searching ").isPrefixOf l
      && !(((l.drop 10).takeWhile Char.isDigit).isEmpty)
      && (str " files").isPrefixOf ((l.drop 10).dropWhile Char.isDigit)
  then some (10 + ((l.drop 10).takeWhile Char.isDigit).length + 6)
  else none

/-- Whether the line `l` matches `Searching \d+ files .*` at its start
(the anchored regex used by `update_searching_headline` and
`SEARCH_HEADER_RE.match`). -/
def headerFullMatch (l : List Char) : Bool :=
  (str "Searching ").isPrefixOf l
    && !(((l.drop 10).takeWhile Char.isDigit).isEmpty)
    && (str " files ").isPrefixOf ((l.drop 10).dropWhile Char.isDigit)

/-- `view.find_all(r"^Searching \d+ files")`: the matched regions, in
buffer order. -/
def findHeadlines (t : List Char) : List Region :=
  (lineRecords 0 (splitLines t)).filterMap
    (fun r => (headlinePrefixLen r.2).map (fun n => Region.mk r.1 (r.1 + n)))

/-- `view.find(r"^Searching \d+ files .*", view.size(), REVERSE)`: the last
match, as the pair (start offset, end offset).  Since `.*` is greedy and
stops at a newline, the match covers the whole matching line. -/
def findLastHeadlineFull (t : List Char) : Option (Nat × Nat) :=
  (((lineRecords 0 (splitLines t)).filter (fun r => headerFullMatch r.2)).getLast?).map
    (fun r => (r.1, r.1 + r.2.length))

/-! ### `re.escape` and the unescape substitution (claim C8)

`fif_addon_refresh_last_search` applies `re.escape(pattern)` when toggling
the regex flag on, and `re.sub(r"\\(.)", r"\1", pattern)` when toggling it
off.  `re.escape` (Python >= 3.7) prefixes a backslash to exactly the
characters of `_special_chars_map`; the unescape substitution scans left to
right and collapses a backslash followed by any character other than a
newline (`.` does not match a newline). -/

/-- The characters escaped by Python's `re.escape`. -/
def reSpecialChars : List Char :=
  ['(', ')', '[', ']', '\x7b', '\x7d', '?', '*', '+', '-', '|', '^', '$',
   '\\', '.', '&', '~', '#', ' ', '\t', '\n', '\r', '\x0b', '\x0c']

/-- `re.escape` (Python >= 3.7). -/
def re_escape : List Char → List Char
  | [] => []
  | c :: rest => (if c ∈ reSpecialChars then ['\\', c] else [c]) ++ re_escape rest

/-- `re.sub(r"\\(.)", r"\1", s)`: replace every backslash-character pair by
the character, scanning left to right; `.` does not match `\n`. -/
def unescape_backslashes : List Char → List Char
  | [] => []
  | [c] => [c]
  | c1 :: c2 :: rest =>
    if c1 = '\\' ∧ c2 ≠ '\n' then c2 :: unescape_backslashes rest
    else c1 :: unescape_backslashes (c2 :: rest)

/-! ### Context lines (claim C9)

`fif_addon_change_context_lines.run` computes the next value of the
`find_in_files_context_lines` override from the user's default and the
current value.  Settings values are integers. -/

/-- The `next_state` computed by `fif_addon_change_context_lines.run`. -/
def next_context (user_setting current : Int) (more : Bool) : Int :=
  if current = 0 ∧ user_setting ≠ 0 then user_setting
  else if current = 0 ∨ more then current + 2
  else if current = user_setting then 0
  else max 0 (current - 2)

/-! ### The per-window dictionaries of `fif_addon_listener` (claim C5) -/

/-- The three class-level dictionaries of `fif_addon_listener`, keyed by
window.  `previous_views` stores a view identifier, the other two an int
and a bool. -/
structure ListenerState where
  previous_views : List (Nat × Nat)
  change_counts_by_window : List (Nat × Nat)
  handle_modified_events : List (Nat × Bool)
deriving DecidableEq

/-- `d.pop(w, None)` on an association-list dictionary. -/
def dictPop {α : Type} (w : Nat) (d : List (Nat × α)) : List (Nat × α) :=
  d.filter (fun e => decide (e.1 ≠ w))

/-- `fif_addon_listener.on_pre_close`. -/
def on_pre_close (s : ListenerState) (v : View) : ListenerState :=
  if v.applicable then
    { previous_views := dictPop v.window s.previous_views
      change_counts_by_window := dictPop v.window s.change_counts_by_window
      handle_modified_events := dictPop v.window s.handle_modified_events }
  else s

/-! ### `SEARCH_INFO_RE` (claim C1)

`SEARCH_INFO_RE = re.compile(r'(?:"(?P<pattern>.+)")(?: \((?P<flags>.+)\))?')`
is applied with `.search` to the text of the search headline, which is a
single line (no newline).  On a newline-free input, Python's leftmost-greedy
semantics give: the match starts at the first quote that has another quote
at least two positions later; the greedy `.+` makes the pattern group run to
the last quote `J`; the optional flags group matches when ` (` follows
position `J` and some `)` occurs at or after `J+4`, the greedy `.+` running
to the last such `)`. -/

def idxsOf (c : Char) (l : List Char) : List Nat :=
  (List.range l.length).filter (fun i => decide (l[i]? = some c))

/-- `SEARCH_INFO_RE.search(info)` on a single-line input: the pattern group
and the optional flags group. -/
def search_info_parse (l : List Char) : Option (List Char × Option (List Char)) :=
  match (idxsOf '"' l).getLast? with
  | none => none
  | some J =>
    match (idxsOf '"' l).find? (fun i => decide (i + 2 ≤ J)) with
    | none => none
    | some i =>
      let pattern := substrL l (i + 1) J
      let flags : Option (List Char) :=
        if l[J + 1]? = some ' ' ∧ l[J + 2]? = some '(' then
          match ((idxsOf ')' l).filter (fun k => decide (J + 4 ≤ k))).getLast? with
          | some K => some (substrL l (J + 3) K)
          | none => none
        else none
      some (pattern, flags)

/-- The internal flag names (values of `translate_flag`). -/
inductive Flag where
  | case_sensitive : Flag
  | regex : Flag
  | whole_word : Flag
deriving DecidableEq

/-- The `translate_flag` dictionary; an unknown user-friendly name raises
`KeyError`, modelled by `none`. -/
def translate_flag (s : List Char) : Option Flag :=
  if s = str "regex" then some Flag.regex
  else if s = str "case sensitive" then some Flag.case_sensitive
  else if s = str "whole word" then some Flag.whole_word
  else none

/-- The user-friendly name of each internal flag. -/
def flagName : Flag → List Char
  | Flag.regex => str "regex"
  | Flag.case_sensitive => str "case sensitive"
  | Flag.whole_word => str "whole word"

/-- Python's `s.split(", ")`. -/
def splitCommaSpace : List Char → List (List Char)
  | [] => [[]]
  | ',' :: ' ' :: rest => [] :: splitCommaSpace rest
  | c :: rest =>
    match splitCommaSpace rest with
    | [] => [[c]]
    | h :: tl => (c :: h) :: tl

/-- `flags.split(", ")` when the flags group matched, `{}` otherwise. -/
def flagNames : Option (List Char) → List (List Char)
  | none => []
  | some fs => splitCommaSpace fs

/-- The set comprehension building `used_flags`: translate every
user-friendly name, failing (`KeyError`) on an unknown one. -/
def translateFlags : List (List Char) → Option (List Flag)
  | [] => some []
  | s :: rest =>
    match translate_flag s with
    | none => none
    | some g => (translateFlags rest).map (fun gs => g :: gs)

/-! ### `fif_addon_refresh_last_search.run` (claims C1, C2, C3, C7)

The command's effects are summarised in a result value: which options the
find panel is opened with, whether the run stopped after opening the panel
(`pause`), the buffer after the old search output is deleted, the captured
`previous_result`, whether a cursor restoration was registered via
`on_search_finished` (and with which column), and whether
`fix_leading_newlines` was registered.  The viewport offset (`y_offset`)
only scrolls the viewport and is not modelled.  The command consults nothing
but the view passed to it and its arguments. -/

/-- The `options` dictionary handed to `show_panel`: empty when
`SEARCH_INFO_RE` does not match, otherwise pattern plus the three flags
(case_sensitive, regex, whole_word). -/
inductive Options where
  | empty : Options
  | full : List Char → Bool → Bool → Bool → Options
deriving DecidableEq

/-- Everything `fif_addon_refresh_last_search.run` does. -/
inductive RefreshResult where
  /-- no `^Searching \d+ files` line: the command returns without any
  action. -/
  | silent : RefreshResult
  /-- `pause=True`: only the panel is opened, prefilled with the options. -/
  | paused : Options → RefreshResult
  /-- the full run: panel options, the buffer after deleting the last
  search output, the captured `previous_result`, the column of a registered
  cursor restoration (`none` when no restoration was registered), and
  whether `fix_leading_newlines` was registered. -/
  | run : Options → List Char → List Char → Option Nat → Bool → RefreshResult
deriving DecidableEq

def panelOf : RefreshResult → Option Options
  | RefreshResult.silent => none
  | RefreshResult.paused o => some o
  | RefreshResult.run o _ _ _ _ => some o

def runRestoreCol : RefreshResult → Option Nat
  | RefreshResult.run _ _ _ rc _ => rc
  | _ => none

def runPrevResult : RefreshResult → Option (List Char)
  | RefreshResult.run _ _ p _ _ => some p
  | _ => none

/-- The view after the command's own edit (the deletion of the old search
output); `silent` and `paused` touch neither buffer nor selection. -/
def refreshApply (v : View) : RefreshResult → View
  | RefreshResult.silent => v
  | RefreshResult.paused _ => v
  | RefreshResult.run _ nt _ _ _ => { v with text := nt }

/-- The options computed from the headline text and the three `toggle_*`
arguments; `none` models the `KeyError` raised by `translate_flag` on an
unknown flag name. -/
def refreshOptions (info : List Char) (tc tr tw : Bool) : Option Options :=
  match search_info_parse info with
  | none => some Options.empty
  | some (P, flOpt) =>
    match translateFlags (flagNames flOpt) with
    | none => none
    | some used =>
      let cs := if tc then !(decide (Flag.case_sensitive ∈ used))
                else decide (Flag.case_sensitive ∈ used)
      let rx := if tr then !(decide (Flag.regex ∈ used)) else decide (Flag.regex ∈ used)
      let ww := if tw then !(decide (Flag.whole_word ∈ used)) else decide (Flag.whole_word ∈ used)
      some (Options.full
        (if tr then (if rx then re_escape P else unescape_backslashes P) else P) cs rx ww)

/-- `fif_addon_refresh_last_search.run(edit, toggle_case_sensitive,
toggle_regex, toggle_whole_word, pause)`. -/
def fif_addon_refresh_last_search (v : View) (tc tr tw pause : Bool) : Option RefreshResult :=
  match (findHeadlines v.text).getLast? with
  | none => some RefreshResult.silent
  | some hl =>
    match refreshOptions (lineContentAt v.text hl.a) tc tr tw with
    | none => none
    | some opts =>
      if pause then some (RefreshResult.paused opts)
      else
        let previous_result := substrL v.text (lineEndAt v.text hl.a) v.text.length
        let cursor := v.sel0.a
        let restoreCol :=
          if rowAt v.text cursor > rowAt v.text hl.a then some (colAt v.text cursor)
          else none
        some (RefreshResult.run opts (v.text.take (hl.a - 2)) previous_result restoreCol
          (decide (hl.a - 2 = 0) && v.inTabList))

/-! ### Match navigation (claims C3, C4) -/

/-- `set_sel(view, [r])`. -/
def setSel (v : View) (r : Region) : View := { v with sel0 := r, selRest := [] }

/-- The candidate carets tried by `fif_addon_next_match.run`: the caret,
then (when a last search headline exists) the headline's start. -/
def nextCarets (v : View) : List Nat :=
  v.sel0.b ::
    (match (findHeadlines v.text).getLast? with
     | some hl => [hl.a]
     | none => [])

/-- The candidate carets tried by `fif_addon_prev_match.run`: the caret,
then the buffer size. -/
def prevCarets (v : View) : List Nat := [v.sel0.b, v.text.length]

/-- The region `fif_addon_next_match.run` selects, if any: for each caret
in turn, the first `match` region whose begin is strictly greater. -/
def nextMatchTarget (v : View) : Option Region :=
  (nextCarets v).findSome?
    (fun c => v.matchRegions.find? (fun r => decide (rbegin r > c)))

/-- The region `fif_addon_prev_match.run` selects, if any: for each caret
in turn, the last `match` region whose end is strictly smaller. -/
def prevMatchTarget (v : View) : Option Region :=
  (prevCarets v).findSome?
    (fun c => v.matchRegions.reverse.find? (fun r => decide (rend r < c)))

/-- `fif_addon_next_match.run` (its effect on the view's selection; showing
the region and the preview `fif_addon_goto` touch neither this buffer nor
this selection). -/
def fif_addon_next_match (v : View) : View :=
  match nextMatchTarget v with
  | some r => setSel v r
  | none => v

/-- `fif_addon_prev_match.run`. -/
def fif_addon_prev_match (v : View) : View :=
  match prevMatchTarget v with
  | some r => setSel v r
  | none => v

/-! ### `check_if_result_changed` (claim C7) -/

/-- Whether `check_if_result_changed` shows the status message
`"Search result already up-to-date."`. -/
def check_if_result_changed (v : View) (previous_result : List Char) : Bool :=
  if v.hasWindow = false then false
  else
    match (findHeadlines v.text).getLast? with
    | none => false
    | some hl =>
      decide (substrL v.text (lineEndAt v.text hl.a) v.text.length = previous_result)

/-! ### `restore_previous_cursor` (claim C2) -/

/-- Non-overlapping literal search, `view.find_all(pat, sublime.LITERAL)`:
match start positions in order.  (The source never searches for an empty
literal: empty candidates are dropped by `filter_`.)  The first argument is
fuel; every step consumes at least one character, so `t.length` suffices. -/
def findLitAux (pat : List Char) : Nat → List Char → Nat → List Nat
  | 0, _, _ => []
  | _ + 1, [], _ => []
  | fuel + 1, c :: rest, i =>
    if pat.isPrefixOf (c :: rest) then
      i :: findLitAux pat fuel (rest.drop (pat.length - 1)) (i + pat.length)
    else findLitAux pat fuel rest (i + 1)

def findLit (pat t : List Char) : List Nat :=
  if pat.isEmpty then [] else findLitAux pat t.length t 0

/-- `itertools.pairwise`. -/
def pairwiseL {α : Type} : List α → List (α × α)
  | x :: y :: rest => (x, y) :: pairwiseL (y :: rest)
  | _ => []

/-- `full_line_content_at(view, p).endswith(suf)`. -/
def fullLineEndsWith (t : List Char) (p : Nat) (suf : List Char) : Bool :=
  suf.isSuffixOf (fullLineContentAt t p)

/-- The generator expression of `restore_previous_cursor`'s candidate
search: the first start position, over the recorded line candidates in
order, of a literal occurrence within `[lo, hi)` whose full line ends with
the candidate. -/
def candidateHit (t : List Char) (lo hi : Nat) (cands : List (List Char)) : Option Nat :=
  cands.findSome? (fun line =>
    ((findLit line t).filter
      (fun p => decide (lo ≤ p) && decide (p < hi) && fullLineEndsWith t p line)).head?)

/-- The filename lookup of `restore_previous_cursor`: iterate over
`pairwise(chain([Region(size)], reversed(filename_regions)))` and take the
first pair whose region starts in `[a, size)` and whose text equals `f`,
yielding (region start, start of the following region); keep
`(a, size)` when nothing matches (the `StopIteration: pass` path). -/
def sectionCode (v : View) (a : Nat) (f : List Char) : Nat × Nat :=
  match (pairwiseL (Region.mk v.text.length v.text.length :: v.filenameRegions.reverse)).find?
      (fun pr : Region × Region => decide (a ≤ pr.2.a) && decide (pr.2.a < v.text.length)
        && decide (substrL v.text pr.2.a pr.2.b = f)) with
  | some pr => (pr.2.a, pr.1.a)
  | none => (a, v.text.length)

/-- Each filename region paired with the start of the following filename
region (or the buffer end): the region's "section". -/
def filenameSections (v : View) : List (Region × Nat) :=
  v.filenameRegions.zip ((v.filenameRegions.map Region.a).drop 1 ++ [v.text.length])

/-- Spec-side formulation of the filename lookup: the last filename
section, in buffer order, whose region starts in `[a, size)` and whose
text equals `f`. -/
def sectionSpec (v : View) (a : Nat) (f : List Char) : Option (Nat × Nat) :=
  (((filenameSections v).filter
      (fun rb => decide (a ≤ rb.1.a) && decide (rb.1.a < v.text.length)
        && decide (substrL v.text rb.1.a rb.1.b = f))).getLast?).map
    (fun rb => (rb.1.a, rb.2))

/-- `restore_previous_cursor(view, row_offset, col, position_description)`:
the (row, col) the cursor is sent to, or `none` when the command returns
silently.  (`row_offset` only scrolls the viewport and is not modelled.) -/
def restore_previous_cursor (v : View) (col : Nat)
    (filename : Option (List Char)) (line_candidates : List (List Char)) :
    Option (Nat × Nat) :=
  match (findHeadlines v.text).getLast? with
  | none => none
  | some hl =>
    let size := v.text.length
    let se :=
      match filename with
      | some f => if f.isEmpty then (hl.a, size) else sectionCode v hl.a f
      | none => (hl.a, size)
    let start :=
      match candidateHit v.text se.1 se.2 line_candidates with
      | some p => p
      | none => se.1
    some (rowAt v.text start, col)

/-- Modelled from the amended claim's words: the cursor goes to the row of
the first matching line candidate, searched inside the matched filename's
section when the recorded filename matches a filename region at or after
the new headline (the last such region), and otherwise anywhere at or after
the headline; when no candidate matches, it falls back to the matched
filename's row, or to the headline's row if no filename matched. -/
def restore_target_spec (v : View) (col : Nat)
    (filename : Option (List Char)) (line_candidates : List (List Char)) :
    Option (Nat × Nat) :=
  match (findHeadlines v.text).getLast? with
  | none => none
  | some hl =>
    let size := v.text.length
    let sec : Option (Nat × Nat) :=
      match filename with
      | some f => if f.isEmpty then none else sectionSpec v hl.a f
      | none => none
    let lo := match sec with | some x => x.1 | none => hl.a
    let hi := match sec with | some x => x.2 | none => size
    match candidateHit v.text lo hi line_candidates with
    | some p => some (rowAt v.text p, col)
    | none => some (rowAt v.text lo, col)

/-! ### `update_searching_headline` (claims C6, C10) -/

def insertAt (t : List Char) (p : Nat) (ins : List Char) : List Char :=
  t.take p ++ ins ++ t.drop p

/-- `update_searching_headline(view, text)`: append `", " + text` to the
last search headline unless the summary starts with `0` or the headline
already ends with it. -/
def update_searching_headline (t : List Char) (text : List Char) : List Char :=
  if (str "0").isPrefixOf text then t
  else
    match findLastHeadlineFull t with
    | none =>
      -- no headline: `view.find` yields Region(-1, -1), whose substr is
      -- empty; `"".endswith(text)` holds only for empty `text`, and the
      -- host clamps the replacement position to the buffer start.
      if text = [] then t else insertAt t 0 (str ", " ++ text)
    | some ab =>
      if text.isSuffixOf (substrL t ab.1 ab.2) then t
      else insertAt t ab.2 (str ", " ++ text)

/-! ### `fif_addon_wait_for_search_to_be_done_listener` (claim C6) -/

/-- `SEARCH_SUMMARY_RE.search(text)` for
`SEARCH_SUMMARY_RE = re.compile(r"\d+ match(es)? .*")`. -/
def SEARCH_SUMMARY_search (l : List Char) : Bool :=
  (List.range l.length).any (fun i =>
    let r := l.drop i
    !((r.takeWhile Char.isDigit).isEmpty)
      && (str " match").isPrefixOf (r.dropWhile Char.isDigit)
      && ((str " ").isPrefixOf ((r.dropWhile Char.isDigit).drop 6)
          || (str "es ").isPrefixOf ((r.dropWhile Char.isDigit).drop 6)))

/-- `view.substr(view.line(view.size() - 1))`. -/
def lastLineText (t : List Char) : List Char := lineContentAt t (t.length - 1)

/-- The state the wait-listener works on: the view, whether the view is in
`_pending_first_result`, the handlers registered for it via
`on_search_finished` (as opaque identifiers), and the handlers already
handed to `sublime.set_timeout`. -/
structure WaitState where
  view : View
  pendingFirst : Bool
  handlers : List Nat
  scheduled : List Nat
deriving DecidableEq

/-- `fif_addon_wait_for_search_to_be_done_listener.on_modified`. -/
def onModifiedWait (s : WaitState) : WaitState :=
  if !s.view.applicable then s
  else
    let v := s.view
    let caret := v.sel0.a
    let pf1 :=
      if v.text.length - caret = 0 ∨ v.text.length - caret = 1 then true
      else s.pendingFirst
    let lineText := lineContentAt v.text caret
    let trigger := !(decide (v.text.length - caret = 0 ∨ v.text.length - caret = 1))
      && s.pendingFirst && !(lineText.isEmpty) && headerFullMatch lineText
      && v.matchRegions.any (fun r => decide (r.a > caret))
    -- with caret = 0 the `fif_addon_next_match` call is deferred via
    -- `sublime.set_timeout`; either way it only moves the selection, which
    -- the remainder of the handler does not read.
    let v1 := if trigger && decide (caret ≠ 0) then fif_addon_next_match v else v
    let pf2 := if trigger then false else pf1
    let t := lastLineText v1.text
    if !SEARCH_SUMMARY_search t then { s with view := v1, pendingFirst := pf2 }
    else
      { view := { v1 with text := update_searching_headline v1.text t }
        pendingFirst := false
        handlers := []
        scheduled := s.scheduled ++ s.handlers }

/-! ### Concrete fixtures used by witnesses and counterexamples -/

/-- A view over the given text with default host state. -/
def baseView (t : String) : View :=
  { text := str t, sel0 := ⟨0, 0⟩, selRest := [], matchRegions := [],
    filenameRegions := [], window := 0, hasWindow := true, applicable := true,
    inTabList := true, changeCount := 0 }

def c1CounterView : View := baseView "Searching 1 files for \"a.b\" (whole word)\n"

def c1WitnessView : View := baseView "Searching 2 files for \"foo\" (case sensitive)\n"

def navView : View :=
  { baseView "Searching 1 files for \"x\"\na x b x\n" with
    matchRegions := [⟨28, 29⟩, ⟨32, 33⟩], sel0 := ⟨29, 29⟩ }

def c7View : View :=
  { baseView "Searching 1 files for \"foo\"\nline2\n" with sel0 := ⟨30, 30⟩ }

def c6ViewA : View :=
  { baseView "Searching 1 files for \"x\"\n x\n5 matches in 1 file" with changeCount := 7 }

def c6ViewB : View := { baseView "hello" with changeCount := 7 }

def c6StateA : WaitState :=
  { view := c6ViewA, pendingFirst := false, handlers := [1], scheduled := [] }

def c6StateB : WaitState :=
  { view := c6ViewB, pendingFirst := false, handlers := [1], scheduled := [] }

def c2View : View :=
  { baseView "Searching 1 files for \"x\"\n\nbar.py:\n 1: x\n" with
    filenameRegions := [⟨27, 34⟩] }

/-! ### Theorems for claims C5, C8, C9 -/

theorem lookup_dictPop {α : Type} (w : Nat) (d : List (Nat × α)) :
    (dictPop w d).lookup w = none := by
  induction d with
  | nil => rfl
  | cons e rest ih =>
    rcases e with ⟨k, val⟩
    by_cases h : k = w
    · have hdrop : dictPop w ((k, val) :: rest) = dictPop w rest := by
        simp [dictPop, h]
      rw [hdrop]
      exact ih
    · have hkeep : dictPop w ((k, val) :: rest) = (k, val) :: dictPop w rest := by
        simp [dictPop, h]
      have hbeq : (w == k) = false := by simp [Ne.symm h]
      rw [hkeep]
      simp only [List.lookup, hbeq]
      exact ih

/-- C5: closing an applicable find-results view discards all three
per-window dictionary entries of `fif_addon_listener`: after `on_pre_close`
none of `previous_views`, `change_counts_by_window`,
`handle_modified_events` contains an entry for the view's window. -/
theorem fif_addon_listener_state_discarded_on_close
    (s : ListenerState) (v : View) (h : v.applicable = true) :
    (on_pre_close s v).previous_views.lookup v.window = none ∧
    (on_pre_close s v).change_counts_by_window.lookup v.window = none ∧
    (on_pre_close s v).handle_modified_events.lookup v.window = none := by
  simp only [on_pre_close, h, if_true]
  exact ⟨lookup_dictPop _ _, lookup_dictPop _ _, lookup_dictPop _ _⟩

def listenerWitnessView : View :=
  { text := str "Searching 1 files for \"x\"\n", sel0 := ⟨0, 0⟩, selRest := []
    matchRegions := [], filenameRegions := [], window := 3, hasWindow := true
    applicable := true, inTabList := true, changeCount := 0 }

def listenerWitnessState : ListenerState :=
  { previous_views := [(3, 7), (4, 8)]
    change_counts_by_window := [(3, 11)]
    handle_modified_events := [(3, true)] }

theorem fif_addon_listener_state_discarded_on_close_witness :
    (on_pre_close listenerWitnessState listenerWitnessView).previous_views.lookup
        listenerWitnessView.window = none ∧
    (on_pre_close listenerWitnessState listenerWitnessView).change_counts_by_window.lookup
        listenerWitnessView.window = none ∧
    (on_pre_close listenerWitnessState listenerWitnessView).handle_modified_events.lookup
        listenerWitnessView.window = none :=
  fif_addon_listener_state_discarded_on_close listenerWitnessState listenerWitnessView (by decide)

/-- C8 (counterexample): the escape/unescape pair is not a round trip on
every string.  For the one-character pattern consisting of a newline,
`re.escape` produces backslash-newline, and the unescape substitution
`re.sub(r"\\(.)", r"\1", ...)` leaves it alone because `.` does not match a
newline. -/
theorem escape_roundtrip_fails_on_newline :
    unescape_backslashes (re_escape ['\n']) ≠ ['\n'] := by decide

/-- C8 (amended): for every pattern without a newline character, the
unescape substitution undoes `re.escape`, so toggling regex on and then off
restores the original search pattern. -/
theorem unescape_re_escape_roundtrip
    (p : List Char) (h : '\n' ∉ p) :
    unescape_backslashes (re_escape p) = p := by
  induction p with
  | nil => rfl
  | cons c rest ih =>
    have hc : c ≠ '\n' := fun hh => h (hh ▸ List.mem_cons_self c rest)
    have hrest : '\n' ∉ rest := fun hh => h (List.mem_cons_of_mem c hh)
    by_cases hs : c ∈ reSpecialChars
    · have : re_escape (c :: rest) = '\\' :: c :: re_escape rest := by
        simp [re_escape, hs]
      rw [this]
      cases hre : re_escape rest with
      | nil =>
        have : rest = [] := by
          cases rest with
          | nil => rfl
          | cons d ds =>
            exfalso
            have : re_escape (d :: ds) ≠ [] := by
              by_cases hd : d ∈ reSpecialChars <;> simp [re_escape, hd]
            exact this hre
        subst this
        simp [unescape_backslashes, hc]
      | cons e es =>
        rw [← hre]
        have : unescape_backslashes ('\\' :: c :: re_escape rest)
            = c :: unescape_backslashes (re_escape rest) := by
          rw [hre]
          simp [unescape_backslashes, hc]
        rw [this, ih hrest]
    · have hbs : c ≠ '\\' := by
        intro hh
        exact hs (hh ▸ (by decide : '\\' ∈ reSpecialChars))
      have : re_escape (c :: rest) = c :: re_escape rest := by
        simp [re_escape, hs]
      rw [this]
      cases hre : re_escape rest with
      | nil =>
        have hr : rest = [] := by
          cases rest with
          | nil => rfl
          | cons d ds =>
            exfalso
            have : re_escape (d :: ds) ≠ [] := by
              by_cases hd : d ∈ reSpecialChars <;> simp [re_escape, hd]
            exact this hre
        subst hr
        simp [unescape_backslashes]
      | cons e es =>
        rw [← hre]
        have : unescape_backslashes (c :: re_escape rest)
            = c :: unescape_backslashes (re_escape rest) := by
          rw [hre]
          simp [unescape_backslashes, hbs]
        rw [this, ih hrest]

theorem unescape_re_escape_roundtrip_witness :
    '\n' ∉ str "a.b\\c (x)" ∧
      unescape_backslashes (re_escape (str "a.b\\c (x)")) = str "a.b\\c (x)" :=
  ⟨by decide, unescape_re_escape_roundtrip (str "a.b\\c (x)") (by decide)⟩

/-- C9: for a non-negative user default and a non-negative current value,
the next context-lines value stored by `fif_addon_change_context_lines` is
non-negative. -/
theorem next_context_nonneg
    (user_setting current : Int) (more : Bool)
    (hu : 0 ≤ user_setting) (hc : 0 ≤ current) :
    0 ≤ next_context user_setting current more := by
  unfold next_context
  split
  · exact hu
  · split
    · omega
    · split
      · omega
      · exact le_max_left 0 _

theorem next_context_nonneg_witness :
    (0 : Int) ≤ 2 ∧ (0 : Int) ≤ 6 ∧ 0 ≤ next_context 2 6 false :=
  ⟨by decide, by decide, next_context_nonneg 2 6 false (by decide) (by decide)⟩

/-! ### Claim C1: the refresh options are re-parsed from the headline -/

theorem translate_flag_name (s : List Char) (g : Flag) (h : translate_flag s = some g) :
    s = flagName g := by
  unfold translate_flag at h
  split_ifs at h with h1 h2 h3
  · injection h with h'; subst h'; exact h1
  · injection h with h'; subst h'; exact h2
  · injection h with h'; subst h'; exact h3

theorem flagName_inj (g g' : Flag) (h : flagName g = flagName g') : g = g' := by
  cases g <;> cases g' <;> first | rfl | exact absurd h (by decide)

theorem translateFlags_total (F : List (List Char))
    (h : ∀ s_ ∈ F, translate_flag s_ ≠ none) :
    ∃ used, translateFlags F = some used := by
  induction F with
  | nil => exact ⟨[], rfl⟩
  | cons s rest ih =>
    obtain ⟨u, hu⟩ := ih (fun x hx => h x (List.mem_cons_of_mem s hx))
    cases ht : translate_flag s with
    | none => exact absurd ht (h s (List.mem_cons_self s rest))
    | some g => exact ⟨g :: u, by simp [translateFlags, ht, hu]⟩

theorem translateFlags_mem (F : List (List Char)) (used : List Flag)
    (h : translateFlags F = some used) :
    ∀ g : Flag, g ∈ used ↔ flagName g ∈ F := by
  induction F generalizing used with
  | nil =>
    intro g
    simp only [translateFlags, Option.some.injEq] at h
    subst h
    simp
  | cons s rest ih =>
    intro g
    cases ht : translate_flag s with
    | none =>
      simp only [translateFlags, ht] at h
      exact Option.noConfusion h
    | some g0 =>
      simp only [translateFlags, ht] at h
      cases hr : translateFlags rest with
      | none => rw [hr] at h; simp at h
      | some u' =>
        rw [hr] at h
        simp only [Option.map_some', Option.some.injEq] at h
        subst h
        have hs := translate_flag_name s g0 ht
        simp only [List.mem_cons]
        constructor
        · rintro (rfl | hg)
          · exact Or.inl hs.symm
          · exact Or.inr ((ih u' hr g).mp hg)
        · rintro (hfe | hf)
          · exact Or.inl (flagName_inj g g0 (by rw [hfe, hs]))
          · exact Or.inr ((ih u' hr g).mpr hf)

/-- C1 (amended): on every invocation of `fif_addon_refresh_last_search`
whose buffer has a search headline whose info part parses (with a valid
flag list), the re-run's options are derived solely by re-parsing the
headline text of the view passed in: each flag is set exactly when its
user-friendly name appears in the parenthesised flag list, inverted when
the corresponding `toggle_*` argument is true; the pattern is the parsed
pattern `P`, except that `toggle_regex` re-escapes it (`re.escape` when the
resulting regex flag is on, collapsing backslash pairs when it is off).
No stored search state is consulted: the result is a function of the view
and the arguments alone. -/
theorem refresh_reparses_headline_options
    (v : View) (tc tr tw pause : Bool) (hl : Region) (P : List Char)
    (flOpt : Option (List Char))
    (hhl : (findHeadlines v.text).getLast? = some hl)
    (hparse : search_info_parse (lineContentAt v.text hl.a) = some (P, flOpt))
    (hvalid : ∀ s_ ∈ flagNames flOpt, translate_flag s_ ≠ none) :
    fif_addon_refresh_last_search v tc tr tw pause ≠ none ∧
    ∀ res, fif_addon_refresh_last_search v tc tr tw pause = some res →
      panelOf res = some (Options.full
        (if tr then
          (if xor (decide (str "regex" ∈ flagNames flOpt)) tr then re_escape P
           else unescape_backslashes P)
         else P)
        (xor (decide (str "case sensitive" ∈ flagNames flOpt)) tc)
        (xor (decide (str "regex" ∈ flagNames flOpt)) tr)
        (xor (decide (str "whole word" ∈ flagNames flOpt)) tw)) := by
  obtain ⟨used, hused⟩ := translateFlags_total _ hvalid
  have hmem := translateFlags_mem _ _ hused
  have hcs : decide (Flag.case_sensitive ∈ used)
      = decide (str "case sensitive" ∈ flagNames flOpt) :=
    decide_eq_decide.mpr (by simpa [flagName] using hmem Flag.case_sensitive)
  have hrx : decide (Flag.regex ∈ used) = decide (str "regex" ∈ flagNames flOpt) :=
    decide_eq_decide.mpr (by simpa [flagName] using hmem Flag.regex)
  have hww : decide (Flag.whole_word ∈ used)
      = decide (str "whole word" ∈ flagNames flOpt) :=
    decide_eq_decide.mpr (by simpa [flagName] using hmem Flag.whole_word)
  have hopt : refreshOptions (lineContentAt v.text hl.a) tc tr tw
      = some (Options.full
        (if tr then
          (if xor (decide (str "regex" ∈ flagNames flOpt)) tr then re_escape P
           else unescape_backslashes P)
         else P)
        (xor (decide (str "case sensitive" ∈ flagNames flOpt)) tc)
        (xor (decide (str "regex" ∈ flagNames flOpt)) tr)
        (xor (decide (str "whole word" ∈ flagNames flOpt)) tw)) := by
    simp only [refreshOptions, hparse, hused, hcs, hrx, hww]
    cases tc <;> cases tr <;> cases tw <;> simp
  constructor
  · cases pause with
    | false => simp [fif_addon_refresh_last_search, hhl, hopt]
    | true => simp [fif_addon_refresh_last_search, hhl, hopt]
  · intro res hres
    simp only [fif_addon_refresh_last_search, hhl, hopt] at hres
    cases pause with
    | false =>
      simp only [Bool.false_eq_true, if_false, Option.some.injEq] at hres
      subst hres
      rfl
    | true =>
      simp only [if_true, Option.some.injEq] at hres
      subst hres
      rfl

theorem refresh_reparses_headline_options_witness :
    fif_addon_refresh_last_search c1WitnessView false false true false ≠ none ∧
    ∀ res, fif_addon_refresh_last_search c1WitnessView false false true false = some res →
      panelOf res = some (Options.full
        (if false then
          (if xor (decide (str "regex" ∈ flagNames (some (str "case sensitive")))) false
           then re_escape (str "foo") else unescape_backslashes (str "foo"))
         else str "foo")
        (xor (decide (str "case sensitive" ∈ flagNames (some (str "case sensitive")))) false)
        (xor (decide (str "regex" ∈ flagNames (some (str "case sensitive")))) false)
        (xor (decide (str "whole word" ∈ flagNames (some (str "case sensitive")))) true)) :=
  refresh_reparses_headline_options c1WitnessView false false true false
    ⟨0, 17⟩ (str "foo") (some (str "case sensitive"))
    (by decide) (by decide) (by decide)

/-- C1 (counterexample): with `toggle_regex` set, the re-run does not use
the parsed pattern itself.  The headline holds the pattern `a.b` with flag
list `(whole word)`, yet the re-run is issued with pattern `a\.b`. -/
theorem refresh_toggle_regex_changes_pattern :
    (fif_addon_refresh_last_search c1CounterView false true false true).bind panelOf
      = some (Options.full (str "a\\.b") false true true) ∧
    str "a\\.b" ≠ str "a.b" := by
  constructor
  · decide
  · decide

/-! ### Claim C3: expected-absence conditions return silently -/

/-- C3: every expected-absence condition returns silently without touching
buffer or selection: a refresh on a buffer without a `^Searching \d+ files`
line yields the silent result (which leaves the view unchanged), and the
match-navigation commands leave the view unchanged when no match region
qualifies for any candidate caret.  All three operations are total
functions: no exception escapes. -/
theorem absence_conditions_return_silently :
    (∀ (v : View) (tc tr tw pause : Bool), findHeadlines v.text = [] →
      fif_addon_refresh_last_search v tc tr tw pause = some RefreshResult.silent ∧
      refreshApply v RefreshResult.silent = v) ∧
    (∀ v : View, (∀ c ∈ nextCarets v, ∀ r ∈ v.matchRegions, ¬ rbegin r > c) →
      fif_addon_next_match v = v) ∧
    (∀ v : View, (∀ c ∈ prevCarets v, ∀ r ∈ v.matchRegions, ¬ rend r < c) →
      fif_addon_prev_match v = v) := by
  refine ⟨?_, ?_, ?_⟩
  · intro v tc tr tw pause h
    exact ⟨by simp [fif_addon_refresh_last_search, h], rfl⟩
  · intro v h
    have hnone : nextMatchTarget v = none :=
      List.findSome?_eq_none_iff.mpr (fun c hc =>
        List.find?_eq_none.mpr (fun r hr => by simpa using h c hc r hr))
    simp [fif_addon_next_match, hnone]
  · intro v h
    have hnone : prevMatchTarget v = none :=
      List.findSome?_eq_none_iff.mpr (fun c hc =>
        List.find?_eq_none.mpr (fun r hr =>
          by simpa using h c hc r (List.mem_reverse.mp hr)))
    simp [fif_addon_prev_match, hnone]

theorem absence_conditions_return_silently_witness :
    (fif_addon_refresh_last_search (baseView "hello") false false false false
        = some RefreshResult.silent ∧
      refreshApply (baseView "hello") RefreshResult.silent = baseView "hello") ∧
    fif_addon_next_match (baseView "hello") = baseView "hello" ∧
    fif_addon_prev_match (baseView "hello") = baseView "hello" :=
  ⟨absence_conditions_return_silently.1 (baseView "hello") false false false false (by decide),
   absence_conditions_return_silently.2.1 (baseView "hello") (by decide),
   absence_conditions_return_silently.2.2 (baseView "hello") (by decide)⟩

/-! ### Claim C4: match navigation -/

theorem findSome?_pair {α β : Type} (f : α → Option β) (a b : α) :
    [a, b].findSome? f = (f a).or (f b) := by
  cases h1 : f a <;> cases h2 : f b <;> simp [List.findSome?, h1, h2]

/-- C4: `fif_addon_next_match` selects the first match region whose begin
is strictly greater than the caret, wrapping around to the first match
region whose begin is strictly greater than the start of the last search
headline; `fif_addon_prev_match` selects the last match region whose end is
strictly less than the caret, wrapping to the last region whose end is
strictly less than the buffer size. -/
theorem match_navigation_targets
    (v : View) (hl : Region)
    (hhl : (findHeadlines v.text).getLast? = some hl) :
    nextMatchTarget v = ((v.matchRegions.find? (fun r => decide (rbegin r > v.sel0.b))).or
        (v.matchRegions.find? (fun r => decide (rbegin r > hl.a)))) ∧
    prevMatchTarget v = ((v.matchRegions.reverse.find? (fun r => decide (rend r < v.sel0.b))).or
        (v.matchRegions.reverse.find? (fun r => decide (rend r < v.text.length)))) ∧
    (∀ r, nextMatchTarget v = some r → fif_addon_next_match v = setSel v r) ∧
    (∀ r, prevMatchTarget v = some r → fif_addon_prev_match v = setSel v r) := by
  refine ⟨?_, ?_, ?_, ?_⟩
  · rw [nextMatchTarget, nextCarets, hhl]
    exact findSome?_pair _ _ _
  · rw [prevMatchTarget, prevCarets]
    exact findSome?_pair _ _ _
  · intro r h
    simp [fif_addon_next_match, h]
  · intro r h
    simp [fif_addon_prev_match, h]

theorem match_navigation_targets_witness :
    nextMatchTarget navView
      = ((navView.matchRegions.find? (fun r => decide (rbegin r > navView.sel0.b))).or
        (navView.matchRegions.find? (fun r => decide (rbegin r > (⟨0, 17⟩ : Region).a)))) ∧
    prevMatchTarget navView
      = ((navView.matchRegions.reverse.find? (fun r => decide (rend r < navView.sel0.b))).or
        (navView.matchRegions.reverse.find? (fun r => decide (rend r < navView.text.length)))) :=
  ⟨(match_navigation_targets navView ⟨0, 17⟩ (by decide)).1,
   (match_navigation_targets navView ⟨0, 17⟩ (by decide)).2.1⟩

/-! ### Claim C7: the up-to-date status message -/

/-- C7: after a refresh, `check_if_result_changed` shows
`"Search result already up-to-date."` if and only if the text from the end
of the search headline to the end of the buffer equals the previously
captured result; and the refresh captures `previous_result` as exactly the
text from the end of the (old) search headline to the end of the buffer. -/
theorem uptodate_message_iff_result_unchanged :
    (∀ (v : View) (previous_result : List Char) (hl : Region),
      v.hasWindow = true → (findHeadlines v.text).getLast? = some hl →
      (check_if_result_changed v previous_result = true ↔
        substrL v.text (lineEndAt v.text hl.a) v.text.length = previous_result)) ∧
    (∀ (v : View) (tc tr tw : Bool) (hl : Region) (res : RefreshResult),
      (findHeadlines v.text).getLast? = some hl →
      fif_addon_refresh_last_search v tc tr tw false = some res →
      runPrevResult res = some (substrL v.text (lineEndAt v.text hl.a) v.text.length)) := by
  constructor
  · intro v prev hl hw hhl
    simp [check_if_result_changed, hw, hhl]
  · intro v tc tr tw hl res hhl hrun
    simp only [fif_addon_refresh_last_search, hhl] at hrun
    cases hopt : refreshOptions (lineContentAt v.text hl.a) tc tr tw with
    | none => rw [hopt] at hrun; cases hrun
    | some o =>
      rw [hopt] at hrun
      simp only [Bool.false_eq_true, if_false, Option.some.injEq] at hrun
      subst hrun
      rfl

theorem uptodate_message_iff_result_unchanged_witness :
    (check_if_result_changed c7View (str "\nline2\n") = true ↔
      substrL c7View.text (lineEndAt c7View.text (0 : Nat)) c7View.text.length
        = str "\nline2\n") ∧
    ∀ res, fif_addon_refresh_last_search c7View false false false false = some res →
      runPrevResult res
        = some (substrL c7View.text (lineEndAt c7View.text (0 : Nat)) c7View.text.length) :=
  ⟨uptodate_message_iff_result_unchanged.1 c7View (str "\nline2\n") ⟨0, 17⟩
      (by decide) (by decide),
   fun res h => uptodate_message_iff_result_unchanged.2 c7View false false false ⟨0, 17⟩
      res (by decide) h⟩

/-! ### Claim C6: when the registered handlers run -/

theorem text_fif_addon_next_match (v : View) : (fif_addon_next_match v).text = v.text := by
  unfold fif_addon_next_match
  cases nextMatchTarget v <;> rfl

/-- C6 (amended): completion of the asynchronous search is detected from
buffer-modification events, not from the change counter: on each
`on_modified` of an applicable view the listener checks whether the
buffer's last line matches the search-summary pattern, and the handlers
registered via `on_search_finished` are handed to `sublime.set_timeout`
exactly when such a summary line is observed. -/
theorem handlers_scheduled_iff_summary_rendered (s : WaitState) :
    (onModifiedWait s).scheduled = s.scheduled ++
      (if s.view.applicable && SEARCH_SUMMARY_search (lastLineText s.view.text)
       then s.handlers else []) := by
  cases ha : s.view.applicable with
  | false => simp [onModifiedWait, ha]
  | true =>
    have hV1 : ∀ b : Bool,
        (if b then fif_addon_next_match s.view else s.view).text = s.view.text := by
      intro b
      cases b
      · rfl
      · exact text_fif_addon_next_match s.view
    simp only [onModifiedWait, ha, Bool.not_true, Bool.false_eq_true, if_false,
      Bool.true_and, hV1]
    cases hs : SEARCH_SUMMARY_search (lastLineText s.view.text) with
    | false => simp
    | true => simp

def c6InfoA : Bool := SEARCH_SUMMARY_search (lastLineText c6StateA.view.text)

/-- C6 (counterexample): completion is not detected by polling the buffer
change counter.  The two concrete states have identical change counters
(and identical registered handlers), yet the listener schedules the
handlers in one and not in the other: the decision is a function of the
buffer text, not of the change counter. -/
theorem completion_not_detected_from_change_counter :
    c6StateA.view.changeCount = c6StateB.view.changeCount ∧
    c6StateA.handlers = c6StateB.handlers ∧
    (onModifiedWait c6StateA).scheduled = [1] ∧
    (onModifiedWait c6StateB).scheduled = [] := by
  refine ⟨rfl, rfl, ?_, ?_⟩
  · decide
  · decide

/-! ### Claim C2: cursor restoration -/

theorem find?_reverse {α : Type} (p : α → Bool) (l : List α) :
    l.reverse.find? p = (l.filter p).getLast? := by
  rw [← List.filter_head? p l.reverse, List.filter_reverse, List.head?_reverse]

theorem pairwise_reverse_sections (l : List Region) (x : Region) :
    (pairwiseL (x :: l.reverse)).map (fun pr : Region × Region => (pr.2, pr.1.a))
      = (l.zip ((l.map Region.a).drop 1 ++ [x.a])).reverse := by
  induction l using List.reverseRecOn generalizing x with
  | nil => rfl
  | append_singleton ls r ih =>
    have hrev : (ls ++ [r]).reverse = r :: ls.reverse := by
      rw [List.reverse_append]
      rfl
    rw [hrev]
    have hpw : pairwiseL (x :: r :: ls.reverse) = (x, r) :: pairwiseL (r :: ls.reverse) := rfl
    rw [hpw, List.map_cons, ih r]
    cases ls with
    | nil => rfl
    | cons a ls' =>
      have hlen : ((a :: ls').map Region.a).drop 1 ++ [r.a]
          = (((a :: ls').map Region.a ++ [r.a]).drop 1) := by
        simp [List.map_cons]
      have hmapapp : ((a :: ls') ++ [r]).map Region.a = (a :: ls').map Region.a ++ [r.a] := by
        simp
      rw [hmapapp, ← hlen]
      have hzip : ((a :: ls') ++ [r]).zip
            ((((a :: ls').map Region.a).drop 1 ++ [r.a]) ++ [x.a])
          = (a :: ls').zip (((a :: ls').map Region.a).drop 1 ++ [r.a])
            ++ [r].zip [x.a] := by
        apply List.zip_append
        simp
      rw [hzip]
      simp

theorem sectionCode_eq_spec (v : View) (a : Nat) (f : List Char) :
    sectionCode v a f
      = (match sectionSpec v a f with
         | some x => x
         | none => (a, v.text.length)) := by
  have hmap := congrArg
    (fun l : List (Region × Nat) => l.find? (fun rb : Region × Nat =>
      decide (a ≤ rb.1.a) && decide (rb.1.a < v.text.length)
        && decide (substrL v.text rb.1.a rb.1.b = f)))
    (pairwise_reverse_sections v.filenameRegions (Region.mk v.text.length v.text.length))
  simp only [List.find?_map] at hmap
  rw [find?_reverse] at hmap
  -- hmap now relates the code-side find? with the spec-side filter/getLast?
  unfold sectionCode sectionSpec filenameSections
  rw [← hmap]
  cases hfind : (pairwiseL (Region.mk v.text.length v.text.length
      :: v.filenameRegions.reverse)).find?
      ((fun rb : Region × Nat =>
          decide (a ≤ rb.1.a) && decide (rb.1.a < v.text.length)
            && decide (substrL v.text rb.1.a rb.1.b = f))
        ∘ fun pr : Region × Region => (pr.2, pr.1.a)) with
  | none =>
    rw [show ((fun rb : Region × Nat =>
        decide (a ≤ rb.1.a) && decide (rb.1.a < v.text.length)
          && decide (substrL v.text rb.1.a rb.1.b = f))
        ∘ fun pr : Region × Region => (pr.2, pr.1.a))
      = (fun pr : Region × Region => decide (a ≤ pr.2.a) && decide (pr.2.a < v.text.length)
          && decide (substrL v.text pr.2.a pr.2.b = f)) from rfl] at hfind
    rw [hfind]
    rfl
  | some pr =>
    rw [show ((fun rb : Region × Nat =>
        decide (a ≤ rb.1.a) && decide (rb.1.a < v.text.length)
          && decide (substrL v.text rb.1.a rb.1.b = f))
        ∘ fun pr : Region × Region => (pr.2, pr.1.a))
      = (fun pr : Region × Region => decide (a ≤ pr.2.a) && decide (pr.2.a < v.text.length)
          && decide (substrL v.text pr.2.a pr.2.b = f)) from rfl] at hfind
    rw [hfind]
    rfl

theorem restore_code_eq_spec (v : View) (col : Nat)
    (filename : Option (List Char)) (cands : List (List Char)) :
    restore_previous_cursor v col filename cands
      = restore_target_spec v col filename cands := by
  unfold restore_previous_cursor restore_target_spec
  cases hhl : (findHeadlines v.text).getLast? with
  | none => rfl
  | some hl =>
    simp only
    cases filename with
    | none =>
      cases candidateHit v.text hl.a v.text.length cands <;> rfl
    | some f =>
      cases hf : f.isEmpty with
      | true =>
        simp only [hf, if_true]
        cases candidateHit v.text hl.a v.text.length cands <;> rfl
      | false =>
        simp only [hf, Bool.false_eq_true, if_false]
        rw [sectionCode_eq_spec v hl.a f]
        cases hsec : sectionSpec v hl.a f with
        | none =>
          simp only
          cases candidateHit v.text hl.a v.text.length cands <;> rfl
        | some x =>
          simp only
          cases candidateHit v.text x.1 x.2 cands <;> rfl

/-- C2 (amended): cursor restoration after a refresh is registered exactly
when the previous cursor row was strictly below the row of the last search
headline; the restoration re-finds the new headline, narrows the search to
the recorded filename's section when that filename matches a filename
region at or after the headline, places the cursor at the previous column
on the row of the first recorded line-content candidate found (matched
literally, with its full line ending in the candidate), and otherwise falls
back to the matched filename's row, or to the headline's own row when no
filename matched. -/
theorem cursor_restoration_procedure :
    (∀ (v : View) (col : Nat) (filename : Option (List Char)) (cands : List (List Char)),
      restore_previous_cursor v col filename cands
        = restore_target_spec v col filename cands) ∧
    (∀ (v : View) (tc tr tw : Bool) (hl : Region) (res : RefreshResult),
      (findHeadlines v.text).getLast? = some hl →
      fif_addon_refresh_last_search v tc tr tw false = some res →
      runRestoreCol res = (if rowAt v.text v.sel0.a > rowAt v.text hl.a
        then some (colAt v.text v.sel0.a) else none)) := by
  constructor
  · exact restore_code_eq_spec
  · intro v tc tr tw hl res hhl hrun
    simp only [fif_addon_refresh_last_search, hhl] at hrun
    cases hopt : refreshOptions (lineContentAt v.text hl.a) tc tr tw with
    | none => rw [hopt] at hrun; cases hrun
    | some o =>
      rw [hopt] at hrun
      simp only [Bool.false_eq_true, if_false, Option.some.injEq] at hrun
      subst hrun
      rfl

theorem cursor_restoration_procedure_witness :
    restore_previous_cursor c2View 5 (some (str "bar.py:")) [str " 1: x\n"]
      = restore_target_spec c2View 5 (some (str "bar.py:")) [str " 1: x\n"] ∧
    ∀ res, fif_addon_refresh_last_search c7View false false false false = some res →
      runRestoreCol res = (if rowAt c7View.text c7View.sel0.a > rowAt c7View.text (0 : Nat)
        then some (colAt c7View.text c7View.sel0.a) else none) :=
  ⟨cursor_restoration_procedure.1 c2View 5 (some (str "bar.py:")) [str " 1: x\n"],
   fun res h => cursor_restoration_procedure.2 c7View false false false ⟨0, 17⟩ res
     (by decide) h⟩

/-- C2 (counterexample): the claim's fallback is wrong.  In this concrete
buffer the recorded filename `bar.py:` matches the filename region on row 2
and no recorded line candidate matches anywhere at or after the new search
headline (row 0), yet the cursor is placed on row 2 — the filename's row —
not on the headline's row. -/
theorem restore_fallback_not_headline_row :
    restore_previous_cursor c2View 5 (some (str "bar.py:")) [str "nope"] = some (2, 5) ∧
    (findHeadlines c2View.text).getLast? = some ⟨0, 17⟩ ∧
    rowAt c2View.text 0 = 0 ∧
    candidateHit c2View.text 0 c2View.text.length [str "nope"] = none ∧
    (2 : Nat) ≠ 0 := by
  refine ⟨?_, ?_, ?_, ?_, ?_⟩ <;> decide

/-! ### Claim C10: `update_searching_headline` is guarded and idempotent -/

theorem splitLines_ne_nil (t : List Char) : splitLines t ≠ [] := by
  cases t with
  | nil => simp [splitLines]
  | cons c rest =>
    simp only [splitLines]
    by_cases hc : c = '\n'
    · simp [hc]
    · simp only [hc, if_false]
      cases splitLines rest <;> simp

theorem joinLines_cons_of_ne_nil (l : List Char) (ls : List (List Char)) (h : ls ≠ []) :
    joinLines (l :: ls) = l ++ '\n' :: joinLines ls := by
  cases ls with
  | nil => exact absurd rfl h
  | cons b bs => rfl

theorem joinLines_splitLines (t : List Char) : joinLines (splitLines t) = t := by
  induction t with
  | nil => rfl
  | cons c rest ih =>
    by_cases hc : c = '\n'
    · subst hc
      rw [show splitLines ('\n' :: rest) = [] :: splitLines rest from by simp [splitLines]]
      rw [joinLines_cons_of_ne_nil [] _ (splitLines_ne_nil rest)]
      simpa using ih
    · cases hs : splitLines rest with
      | nil => exact absurd hs (splitLines_ne_nil rest)
      | cons l ls =>
        rw [show splitLines (c :: rest) = (c :: l) :: ls from by simp [splitLines, hc, hs]]
        cases ls with
        | nil =>
          have hl : l = rest := by rw [hs] at ih; exact ih
          rw [hl]
          rfl
        | cons l2 ls2 =>
          rw [joinLines_cons_of_ne_nil (c :: l) (l2 :: ls2) (by simp)]
          have hihs : l ++ '\n' :: joinLines (l2 :: ls2) = rest := by
            rw [hs, joinLines_cons_of_ne_nil l (l2 :: ls2) (by simp)] at ih
            exact ih
          simp [← hihs]

theorem no_newline_of_mem_splitLines (t l : List Char) (h : l ∈ splitLines t) :
    '\n' ∉ l := by
  induction t generalizing l with
  | nil =>
    simp [splitLines] at h
    subst h
    simp
  | cons c rest ih =>
    simp only [splitLines] at h
    by_cases hc : c = '\n'
    · rw [if_pos hc] at h
      rcases List.mem_cons.mp h with rfl | h2
      · simp
      · exact ih l h2
    · rw [if_neg hc] at h
      cases hs : splitLines rest with
      | nil => exact absurd hs (splitLines_ne_nil rest)
      | cons l0 ls =>
        rw [hs] at h
        rcases List.mem_cons.mp h with rfl | h2
        · intro hmem
          rcases List.mem_cons.mp hmem with h3 | h3
          · exact hc h3.symm
          · exact (ih l0 (hs ▸ List.mem_cons_self l0 ls)) h3
        · exact ih l (hs ▸ List.mem_cons_of_mem l0 h2)

theorem splitLines_no_newline (l : List Char) (h : '\n' ∉ l) : splitLines l = [l] := by
  induction l with
  | nil => rfl
  | cons c rest ih =>
    have hc : c ≠ '\n' := fun hh => h (hh ▸ List.mem_cons_self c rest)
    have hr : '\n' ∉ rest := fun hh => h (List.mem_cons_of_mem c hh)
    simp [splitLines, hc, ih hr]

theorem splitLines_append_newline (l rest : List Char) (h : '\n' ∉ l) :
    splitLines (l ++ '\n' :: rest) = l :: splitLines rest := by
  induction l with
  | nil => simp [splitLines]
  | cons c l' ih =>
    have hc : c ≠ '\n' := fun hh => h (hh ▸ List.mem_cons_self c l')
    have hl' : '\n' ∉ l' := fun hh => h (List.mem_cons_of_mem c hh)
    simp [splitLines, hc, ih hl']

theorem splitLines_joinLines (ls : List (List Char)) (hne : ls ≠ [])
    (h : ∀ l ∈ ls, '\n' ∉ l) : splitLines (joinLines ls) = ls := by
  induction ls with
  | nil => exact absurd rfl hne
  | cons l ls' ih =>
    cases ls' with
    | nil => exact splitLines_no_newline l (h l (List.mem_cons_self l []))
    | cons b bs =>
      rw [joinLines_cons_of_ne_nil l (b :: bs) (by simp)]
      rw [splitLines_append_newline l _ (h l (List.mem_cons_self l (b :: bs)))]
      rw [ih (by simp) (fun x hx => h x (List.mem_cons_of_mem l hx))]

theorem lineRecords_append (p : Nat) (xs ys : List (List Char)) :
    lineRecords p (xs ++ ys) = lineRecords p xs ++ lineRecords (p + flatLen xs) ys := by
  induction xs generalizing p with
  | nil => simp [lineRecords, flatLen]
  | cons l xs' ih =>
    rw [show ((l :: xs') ++ ys) = l :: (xs' ++ ys) from rfl]
    rw [show lineRecords p (l :: (xs' ++ ys))
        = (p, l) :: lineRecords (p + l.length + 1) (xs' ++ ys) from rfl]
    rw [ih]
    rw [show lineRecords p (l :: xs') = (p, l) :: lineRecords (p + l.length + 1) xs' from rfl]
    rw [show flatLen (l :: xs') = l.length + 1 + flatLen xs' from rfl]
    rw [show p + l.length + 1 + flatLen xs' = p + (l.length + 1 + flatLen xs') from by omega]
    rfl

theorem take_append_left {α : Type} (u w : List α) (k : Nat) :
    (u ++ w).take (u.length + k) = u ++ w.take k := by
  induction u with
  | nil => simp
  | cons c u' ih =>
    have harith : (c :: u').length + k = (u'.length + k) + 1 := by
      simp [List.length_cons]
      omega
    rw [harith]
    simp [List.take_succ_cons, ih]

theorem drop_append_left {α : Type} (u w : List α) (k : Nat) :
    (u ++ w).drop (u.length + k) = w.drop k := by
  induction u with
  | nil => simp
  | cons c u' ih =>
    have harith : (c :: u').length + k = (u'.length + k) + 1 := by
      simp [List.length_cons]
      omega
    rw [harith]
    simp [List.drop_succ_cons, ih]

theorem drop_append_of_le {α : Type} (n : Nat) (u w : List α) (h : n ≤ u.length) :
    (u ++ w).drop n = u.drop n ++ w := by
  induction u generalizing n with
  | nil =>
    simp at h
    simp [h]
  | cons c u' ih =>
    cases n with
    | zero => simp
    | succ n' => simp [List.drop_succ_cons, ih n' (by simpa using h)]

theorem substrL_append_left (u w : List Char) (s e' : Nat) :
    substrL (u ++ w) (u.length + s) (u.length + e') = substrL w s e' := by
  unfold substrL
  rw [take_append_left, drop_append_left]

theorem insertAt_joinLines (A : List (List Char)) (m : List Char) (B : List (List Char))
    (e : List Char) :
    insertAt (joinLines (A ++ m :: B)) (flatLen A + m.length) e
      = joinLines (A ++ (m ++ e) :: B) := by
  induction A with
  | nil =>
    cases B with
    | nil => simp [joinLines, insertAt, flatLen]
    | cons b bs =>
      rw [show ([] ++ m :: b :: bs : List (List Char)) = m :: b :: bs from rfl]
      rw [show ([] ++ (m ++ e) :: b :: bs : List (List Char)) = (m ++ e) :: b :: bs from rfl]
      rw [joinLines_cons_of_ne_nil m (b :: bs) (by simp)]
      rw [joinLines_cons_of_ne_nil (m ++ e) (b :: bs) (by simp)]
      unfold insertAt
      rw [show flatLen [] + m.length = m.length from by simp [flatLen]]
      rw [List.take_left' rfl, List.drop_left' rfl]
  | cons a A' ih =>
    rw [show ((a :: A') ++ m :: B) = a :: (A' ++ m :: B) from rfl]
    rw [show ((a :: A') ++ (m ++ e) :: B) = a :: (A' ++ (m ++ e) :: B) from rfl]
    rw [joinLines_cons_of_ne_nil a _ (by simp)]
    rw [joinLines_cons_of_ne_nil a _ (by simp)]
    rw [show a ++ '\n' :: joinLines (A' ++ m :: B)
        = (a ++ ['\n']) ++ joinLines (A' ++ m :: B) from by simp]
    rw [show a ++ '\n' :: joinLines (A' ++ (m ++ e) :: B)
        = (a ++ ['\n']) ++ joinLines (A' ++ (m ++ e) :: B) from by simp]
    rw [show flatLen (a :: A') + m.length
        = (a ++ ['\n']).length + (flatLen A' + m.length) from by
      simp only [flatLen, List.length_append, List.length_cons, List.length_nil]
      omega]
    unfold insertAt
    rw [take_append_left, drop_append_left]
    rw [show (a ++ ['\n']) ++ (joinLines (A' ++ m :: B)).take (flatLen A' + m.length) ++ e
          ++ (joinLines (A' ++ m :: B)).drop (flatLen A' + m.length)
        = (a ++ ['\n']) ++ ((joinLines (A' ++ m :: B)).take (flatLen A' + m.length) ++ e
          ++ (joinLines (A' ++ m :: B)).drop (flatLen A' + m.length)) from by simp]
    rw [show insertAt (joinLines (A' ++ m :: B)) (flatLen A' + m.length) e
        = (joinLines (A' ++ m :: B)).take (flatLen A' + m.length) ++ e
          ++ (joinLines (A' ++ m :: B)).drop (flatLen A' + m.length) from rfl] at ih
    rw [ih]

theorem substrL_joinLines_line (A : List (List Char)) (l : List Char) (B : List (List Char)) :
    substrL (joinLines (A ++ l :: B)) (flatLen A) (flatLen A + l.length) = l := by
  induction A with
  | nil =>
    cases B with
    | nil => simp [joinLines, substrL, flatLen]
    | cons b bs =>
      rw [show ([] ++ l :: b :: bs : List (List Char)) = l :: b :: bs from rfl]
      rw [joinLines_cons_of_ne_nil l (b :: bs) (by simp)]
      unfold substrL
      rw [show flatLen ([] : List (List Char)) + l.length = l.length from by simp [flatLen]]
      rw [List.take_left' rfl]
      simp [flatLen]
  | cons a A' ih =>
    rw [show ((a :: A') ++ l :: B) = a :: (A' ++ l :: B) from rfl]
    rw [joinLines_cons_of_ne_nil a _ (by simp)]
    rw [show a ++ '\n' :: joinLines (A' ++ l :: B)
        = (a ++ ['\n']) ++ joinLines (A' ++ l :: B) from by simp]
    rw [show flatLen (a :: A') = (a ++ ['\n']).length + flatLen A' from by
      simp [flatLen]]
    rw [Nat.add_assoc]
    rw [substrL_append_left]
    exact ih

theorem filter_lineRecords_nil_iff (p : Nat) (ls : List (List Char)) :
    ((lineRecords p ls).filter (fun r => headerFullMatch r.2)) = [] ↔
      ∀ l ∈ ls, headerFullMatch l = false := by
  induction ls generalizing p with
  | nil => simp [lineRecords]
  | cons l ls' ih =>
    simp only [lineRecords, List.filter_cons]
    cases hl : headerFullMatch l with
    | false => simp [hl, List.forall_mem_cons, ih]
    | true => simp [hl, List.forall_mem_cons]

theorem lastHeadline_of_decomp (p : Nat) (A : List (List Char)) (m : List Char)
    (B : List (List Char)) (hm : headerFullMatch m = true)
    (hB : ∀ l ∈ B, headerFullMatch l = false) :
    ((lineRecords p (A ++ m :: B)).filter (fun r => headerFullMatch r.2)).getLast?
      = some (p + flatLen A, m) := by
  rw [lineRecords_append, List.filter_append]
  rw [show lineRecords (p + flatLen A) (m :: B)
      = (p + flatLen A, m) :: lineRecords (p + flatLen A + m.length + 1) B from rfl]
  rw [List.filter_cons]
  simp only [hm, if_true]
  rw [(filter_lineRecords_nil_iff _ _).mpr hB]
  exact List.getLast?_concat _

theorem getLast?_cons_or {α : Type} (a : α) (l : List α) :
    (a :: l).getLast? = l.getLast?.or (some a) := by
  cases l with
  | nil => rfl
  | cons b t =>
    rw [List.getLast?_cons_cons]
    cases h : (b :: t).getLast? with
    | none => exact absurd (List.getLast?_eq_none_iff.mp h) (by simp)
    | some x => rfl

theorem lastHeadline_decomp (lines : List (List Char)) (p q : Nat) (m : List Char)
    (h : ((lineRecords p lines).filter (fun r => headerFullMatch r.2)).getLast?
      = some (q, m)) :
    ∃ A B, lines = A ++ m :: B ∧ headerFullMatch m = true ∧
      (∀ l ∈ B, headerFullMatch l = false) ∧ q = p + flatLen A := by
  induction lines generalizing p with
  | nil => simp [lineRecords] at h
  | cons l ls ih =>
    rw [show lineRecords p (l :: ls) = (p, l) :: lineRecords (p + l.length + 1) ls from rfl,
      List.filter_cons] at h
    cases hpl : headerFullMatch l with
    | false =>
      simp only [hpl, Bool.false_eq_true, if_false] at h
      obtain ⟨A', B', hdec, hm, hB, hq⟩ := ih (p + l.length + 1) h
      refine ⟨l :: A', B', by rw [hdec]; rfl, hm, hB, ?_⟩
      rw [hq]
      simp [flatLen]
      omega
    | true =>
      simp only [hpl, if_true] at h
      rw [getLast?_cons_or] at h
      cases hfr : ((lineRecords (p + l.length + 1) ls).filter
          (fun r => headerFullMatch r.2)).getLast? with
      | some x =>
        rw [hfr] at h
        simp only [Option.or] at h
        obtain ⟨A', B', hdec, hm, hB, hq⟩ := ih (p + l.length + 1) (hfr.trans h)
        refine ⟨l :: A', B', by rw [hdec]; rfl, hm, hB, ?_⟩
        rw [hq]
        simp [flatLen]
        omega
      | none =>
        rw [hfr] at h
        simp only [Option.or, Option.some.injEq, Prod.mk.injEq] at h
        obtain ⟨hq, hm⟩ := h
        refine ⟨[], ls, by rw [hm]; rfl, by rw [← hm]; exact hpl, ?_,
          by rw [← hq]; simp [flatLen]⟩
        exact (filter_lineRecords_nil_iff _ _).mp (List.getLast?_eq_none_iff.mp hfr)

theorem takeWhile_dropWhile_append {α : Type} (p : α → Bool) (r e : List α)
    (h : r.dropWhile p ≠ []) :
    (r ++ e).takeWhile p = r.takeWhile p ∧ (r ++ e).dropWhile p = r.dropWhile p ++ e := by
  induction r with
  | nil => simp [List.dropWhile] at h
  | cons c r' ih =>
    cases hp : p c with
    | false =>
      constructor
      · simp [List.takeWhile_cons, hp]
      · simp [List.dropWhile_cons, hp]
    | true =>
      have h' : r'.dropWhile p ≠ [] := by simpa [List.dropWhile_cons, hp] using h
      obtain ⟨h1, h2⟩ := ih h'
      constructor
      · simp [List.takeWhile_cons, hp, h1]
      · simp [List.dropWhile_cons, hp, h2]

theorem headerFullMatch_append (m e : List Char) (hm : headerFullMatch m = true) :
    headerFullMatch (m ++ e) = true := by
  simp only [headerFullMatch, Bool.and_eq_true, Bool.not_eq_true'] at hm
  obtain ⟨⟨hpre, hds⟩, hfl⟩ := hm
  have hpre' : str "Searching " <+: m := List.isPrefixOf_iff_prefix.mp hpre
  have hlen : 10 ≤ m.length := by
    have := hpre'.length_le
    simpa using this
  have hdrop : (m ++ e).drop 10 = m.drop 10 ++ e := drop_append_of_le 10 m e hlen
  have hdw_ne : (m.drop 10).dropWhile Char.isDigit ≠ [] := by
    intro hnil
    rw [hnil] at hfl
    simp [List.isPrefixOf] at hfl
  obtain ⟨htW, hdW⟩ := takeWhile_dropWhile_append Char.isDigit (m.drop 10) e hdw_ne
  simp only [headerFullMatch, Bool.and_eq_true, Bool.not_eq_true']
  refine ⟨⟨?_, ?_⟩, ?_⟩
  · exact List.isPrefixOf_iff_prefix.mpr (hpre'.trans (List.prefix_append m e))
  · rw [hdrop, htW]
    exact hds
  · rw [hdrop, hdW]
    exact List.isPrefixOf_iff_prefix.mpr
      ((List.isPrefixOf_iff_prefix.mp hfl).trans
        (List.prefix_append ((m.drop 10).dropWhile Char.isDigit) e))

/-- C10: `update_searching_headline` is guarded and idempotent: it leaves
the buffer alone when the summary text starts with `0`; it leaves the
buffer alone when the found headline already ends with the summary text;
and, for a single-line summary on a buffer with a headline, applying it a
second time with the same summary text changes nothing. -/
theorem update_searching_headline_guarded_idempotent :
    (∀ t text : List Char, (str "0").isPrefixOf text = true →
      update_searching_headline t text = t) ∧
    (∀ (t text : List Char) (a b : Nat), findLastHeadlineFull t = some (a, b) →
      text.isSuffixOf (substrL t a b) = true →
      update_searching_headline t text = t) ∧
    (∀ t text : List Char, '\n' ∉ text → findLastHeadlineFull t ≠ none →
      update_searching_headline (update_searching_headline t text) text
        = update_searching_headline t text) := by
  refine ⟨?_, ?_, ?_⟩
  · intro t text h
    unfold update_searching_headline
    rw [if_pos h]
  · intro t text a b hfind hsuf
    by_cases h0 : (str "0").isPrefixOf text = true
    · unfold update_searching_headline
      rw [if_pos h0]
    · simp only [update_searching_headline, h0, hfind, hsuf, if_true, Bool.false_eq_true,
        if_false]
  · intro t x hnx hhl
    by_cases h0 : (str "0").isPrefixOf x = true
    · simp [update_searching_headline, h0]
    · cases hfind : findLastHeadlineFull t with
      | none => exact absurd hfind hhl
      | some ab =>
        obtain ⟨a, b⟩ := ab
        by_cases hsuf : x.isSuffixOf (substrL t a b) = true
        · have h1 : update_searching_headline t x = t := by
            simp only [update_searching_headline, h0, hfind, hsuf, if_true,
              Bool.false_eq_true, if_false]
          rw [h1]
          exact h1
        · have h1 : update_searching_headline t x = insertAt t b (str ", " ++ x) := by
            simp only [update_searching_headline, h0, hfind, hsuf, Bool.false_eq_true,
              if_false]
          obtain ⟨⟨q, m⟩, hql, hab⟩ := Option.map_eq_some'.mp hfind
          have hab' : (q, q + m.length) = (a, b) := hab
          injection hab' with ha hb
          obtain ⟨A, B, hdec, hm, hB, hq⟩ := lastHeadline_decomp (splitLines t) 0 q m hql
          have hq0 : q = flatLen A := by omega
          have ht : t = joinLines (A ++ m :: B) := by
            rw [← hdec]
            exact (joinLines_splitLines t).symm
          have hnlAll : ∀ l ∈ A ++ (m ++ (str ", " ++ x)) :: B, '\n' ∉ l := by
            intro l hl
            rcases List.mem_append.mp hl with hA | hmB
            · exact no_newline_of_mem_splitLines t l
                (hdec ▸ List.mem_append_left _ hA)
            · rcases List.mem_cons.mp hmB with rfl | hBmem
              · intro hin
                rcases List.mem_append.mp hin with hin1 | hin2
                · exact no_newline_of_mem_splitLines t m
                    (hdec ▸ List.mem_append_right _ (List.mem_cons_self m B)) hin1
                · rcases List.mem_append.mp hin2 with hin3 | hin4
                  · simp [str] at hin3
                  · exact hnx hin4
              · exact no_newline_of_mem_splitLines t l
                  (hdec ▸ List.mem_append_right _ (List.mem_cons_of_mem m hBmem))
          have hins : insertAt t b (str ", " ++ x)
              = joinLines (A ++ (m ++ (str ", " ++ x)) :: B) := by
            rw [ht, ← hb, hq0]
            exact insertAt_joinLines A m B (str ", " ++ x)
          have hsplit' : splitLines (joinLines (A ++ (m ++ (str ", " ++ x)) :: B))
              = A ++ (m ++ (str ", " ++ x)) :: B :=
            splitLines_joinLines _ (by simp) hnlAll
          have hfind' : findLastHeadlineFull (joinLines (A ++ (m ++ (str ", " ++ x)) :: B))
              = some (flatLen A, flatLen A + (m ++ (str ", " ++ x)).length) := by
            unfold findLastHeadlineFull
            rw [hsplit']
            rw [lastHeadline_of_decomp 0 A (m ++ (str ", " ++ x)) B
              (headerFullMatch_append m _ hm) hB]
            simp
          have hsuf' : x.isSuffixOf
              (substrL (joinLines (A ++ (m ++ (str ", " ++ x)) :: B)) (flatLen A)
                (flatLen A + (m ++ (str ", " ++ x)).length)) = true := by
            rw [substrL_joinLines_line A (m ++ (str ", " ++ x)) B]
            refine List.isSuffixOf_iff_suffix.mpr ?_
            rw [show m ++ (str ", " ++ x) = (m ++ str ", ") ++ x from by simp]
            exact List.suffix_append (m ++ str ", ") x
          rw [h1, hins]
          simp only [update_searching_headline, h0, hfind', hsuf', if_true,
            Bool.false_eq_true, if_false]

theorem update_searching_headline_guarded_idempotent_witness :
    update_searching_headline (str "hello") (str "0 matches") = str "hello" ∧
    update_searching_headline (str "Searching 2 files for \"x\", 5 matches")
        (str "5 matches") = str "Searching 2 files for \"x\", 5 matches" ∧
    update_searching_headline
        (update_searching_headline (str "Searching 2 files for \"x\"\n y\n")
          (str "5 matches in 1 file"))
        (str "5 matches in 1 file")
      = update_searching_headline (str "Searching 2 files for \"x\"\n y\n")
          (str "5 matches in 1 file") :=
  ⟨update_searching_headline_guarded_idempotent.1 (str "hello") (str "0 matches")
      (by decide),
   update_searching_headline_guarded_idempotent.2.1
      (str "Searching 2 files for \"x\", 5 matches") (str "5 matches") 0 36
      (by decide) (by decide),
   update_searching_headline_guarded_idempotent.2.2
      (str "Searching 2 files for \"x\"\n y\n") (str "5 matches in 1 file")
      (by decide) (by decide)⟩

end FifAddon
